import Mathlib

/-!
Shallow embedding of the `files-ingest` pipeline (src/main.rs) over `List Char`
(a faithful model of a Rust `String` as its sequence of characters), together
with proofs settling the specification claims.
-/

namespace FilesIngest

/-- The backtick character (written via its code point). -/
def btick : Char := Char.ofNat 96

/-! ## Lines: model of Rust `str::lines`, `Vec::join("\n")` -/

/-- Split a character list into the pieces between newline characters.
Always returns at least one piece (splitting the empty string gives one
empty piece). -/
def splitNl : List Char → List (List Char)
  | [] => [[]]
  | c :: cs =>
    let r := splitNl cs
    if c = '\n' then [] :: r else (c :: r.headI) :: r.tail

/-- Join pieces with a newline separator: model of Rust `Vec::join("\n")`. -/
def joinNl : List (List Char) → List Char
  | [] => []
  | [l] => l
  | l :: ls => l ++ '\n' :: joinNl ls

/-- Drop one trailing carriage return, as Rust `str::lines` does for a line
that was terminated by a newline (a `\r\n` line ending). -/
def stripCR (l : List Char) : List Char :=
  if l.getLast? = some '\r' then l.dropLast else l

/-- Model of Rust `str::lines`: split on newline characters and strip one
trailing carriage return from every newline-terminated piece. When the input
ends with a newline, the final empty piece is dropped and all remaining
pieces were newline-terminated; otherwise the final piece was not terminated
and keeps a trailing carriage return, so only the earlier pieces are
stripped (std doc example: the last line of `"foo\r\nbar\n\nbaz\r"` is
`"baz\r"`). -/
def rustLines (s : List Char) : List (List Char) :=
  let ps := splitNl s
  if ps.getLast? = some [] then ps.dropLast.map stripCR
  else ps.dropLast.map stripCR ++ [ps.getLastD []]

/-- Rust `format!("{:<width$}", v)`: left-justify, padding on the right with
spaces up to the given minimum width. -/
def padRightSpaces (s : List Char) (width : Nat) : List Char :=
  s ++ List.replicate (width - s.length) ' '

/-- Right-justification (left padding with spaces), used only to state the
claim that the source left-justifies instead. -/
def padLeftSpaces (s : List Char) (width : Nat) : List Char :=
  List.replicate (width - s.length) ' ' ++ s

/-- Embedding of `add_line_numbers` (src/main.rs lines 335-351): collect the
lines, compute the padding from the decimal rendering of the line count
(minimum 1 for zero lines), and render each line as
`format!("{:<width$}  {}", i + 1, line)`, joined with newlines. -/
def add_line_numbers (content : List Char) : List Char :=
  let lines := rustLines content
  let num_lines := lines.length
  let padding := if num_lines = 0 then 1 else (Nat.toDigits 10 num_lines).length
  joinNl (lines.enum.map (fun pr =>
    padRightSpaces (Nat.toDigits 10 (pr.1 + 1)) padding ++ [' ', ' '] ++ pr.2))

/-! ## Substring replacement: model of Rust `str::replace` -/

/-- Model of Rust `str::replace`: scan left to right, replacing each
non-overlapping occurrence of `pat` by `repl`. -/
def replaceAll (pat repl : List Char) : List Char → List Char
  | [] => []
  | c :: cs =>
    if pat ≠ [] ∧ pat <+: (c :: cs) then
      repl ++ replaceAll pat repl ((c :: cs).drop pat.length)
    else
      c :: replaceAll pat repl cs
termination_by l => l.length
decreasing_by
  · rename_i h
    have hlen : pat.length ≤ (c :: cs).length := h.2.length_le
    have hpos : 0 < pat.length := List.length_pos.mpr h.1
    simp only [List.length_drop]
    omega
  · simp

/-- The CXML escaping from `print_file` (src/main.rs lines 379-383):
`&` first, then `<`, then `>`. -/
def escape_content (s : List Char) : List Char :=
  replaceAll ['>'] "&gt;".data
    (replaceAll ['<'] "&lt;".data
      (replaceAll ['&'] "&amp;".data s))

/-- The inverse substitutions applied in reverse order, exactly as the claim
describes the un-escaping: `&gt;` back to `>`, then `&lt;` back to `<`,
then `&amp;` back to `&`. -/
def unescape_content (s : List Char) : List Char :=
  replaceAll "&amp;".data ['&']
    (replaceAll "&lt;".data ['<']
      (replaceAll "&gt;".data ['>'] s))

/-- Character-wise expansion: apply `f` to every character and concatenate.
Used to reason about single-character replacements. -/
def expandWith (f : Char → List Char) : List Char → List Char
  | [] => []
  | c :: cs => f c ++ expandWith f cs

/-- The combined effect of the three escape substitutions on one character. -/
def escChar (c : Char) : List Char :=
  if c = '&' then "&amp;".data
  else if c = '<' then "&lt;".data
  else if c = '>' then "&gt;".data
  else [c]

/-- The state after un-escaping `&gt;`: ampersands and less-thans still
escaped. -/
def escCharNoGt (c : Char) : List Char :=
  if c = '&' then "&amp;".data
  else if c = '<' then "&lt;".data
  else [c]

/-- The state after additionally un-escaping `&lt;`: only ampersands still
escaped. -/
def escCharAmpOnly (c : Char) : List Char :=
  if c = '&' then "&amp;".data else [c]

/-! ## Backtick runs and Markdown fence selection -/

/-- Length of the leading run of backticks. -/
def leadRun : List Char → Nat
  | [] => 0
  | c :: cs => if c = btick then leadRun cs + 1 else 0

/-- Length of the longest run of consecutive backticks anywhere in the list. -/
def longestRun : List Char → Nat
  | [] => 0
  | c :: cs => max (leadRun (c :: cs)) (longestRun cs)

/-- The `while processed_content.contains(&backticks) { backticks.push('`') }`
loop of `print_file` (src/main.rs lines 407-410), as the length it reaches
starting from `n` backticks. -/
def growFence (content : List Char) (n : Nat) : Nat :=
  if (List.replicate n btick) <:+: content then growFence content (n + 1) else n
termination_by content.length + 1 - n
decreasing_by
  rename_i h
  have hlen : (List.replicate n btick).length ≤ content.length := h.length_le
  simp only [List.length_replicate] at hlen
  omega

/-- The fence string chosen by `print_file` for a given (already
line-numbered) content: start at three backticks and grow by one while the
fence occurs in the content. -/
def chooseFence (content : List Char) : List Char :=
  List.replicate (growFence content 3) btick

/-! ## Paths, extensions, language map -/

/-- The bare file name: the final path segment, as Rust `Path::file_name`
produces on ordinary file paths. -/
def fileNameOf (p : List Char) : List Char :=
  (p.reverse.takeWhile (fun c => c ≠ '/')).reverse

/-- Model of Rust `Path::extension().and_then(|e| e.to_str())`: the part of
the file name after the last dot, `none` when there is no dot, when the only
dot is the leading character of the file name, or for the special `.`/`..`
components. -/
def extensionOf (p : List Char) : Option (List Char) :=
  let name := fileNameOf p
  if name = ['.'] ∨ name = ['.', '.'] then none
  else
    let afterRev := name.reverse.takeWhile (fun c => c ≠ '.')
    if afterRev.length = name.length then none
    else if afterRev.length + 1 = name.length then none
    else some afterRev.reverse

/-- ASCII lower-casing of one character, as in Rust `eq_ignore_ascii_case`. -/
def asciiLower (c : Char) : Char :=
  if 'A' ≤ c ∧ c ≤ 'Z' then Char.ofNat (c.toNat + 32) else c

/-- Rust `str::eq_ignore_ascii_case`. -/
def eqIgnoreAsciiCase (a b : List Char) : Bool :=
  a.map asciiLower = b.map asciiLower

/-- Rust `str::contains` with a string pattern: substring occurrence. -/
def containsSub (hay pat : List Char) : Bool :=
  decide (pat <:+: hay)

/-- The static extension-to-language table built by
`initialize_language_map` (src/main.rs lines 15-42). -/
def initialize_language_map : List (List Char × List Char) :=
  [ ("py".data, "python".data)
  , ("rs".data, "rust".data)
  , ("c".data, "c".data)
  , ("h".data, "c".data)
  , ("cpp".data, "cpp".data)
  , ("hpp".data, "cpp".data)
  , ("java".data, "java".data)
  , ("js".data, "javascript".data)
  , ("ts".data, "typescript".data)
  , ("html".data, "html".data)
  , ("css".data, "css".data)
  , ("xml".data, "xml".data)
  , ("json".data, "json".data)
  , ("yaml".data, "yaml".data)
  , ("yml".data, "yaml".data)
  , ("sh".data, "bash".data)
  , ("rb".data, "ruby".data)
  , ("md".data, "markdown".data)
  , ("toml".data, "toml".data)
  , ("go".data, "go".data)
  , ("php".data, "php".data)
  , ("swift".data, "swift".data)
  , ("kt".data, "kotlin".data)
  , ("sql".data, "sql".data) ]

/-- The Markdown language tag for a path: look up the lower-cased extension
in the static table, defaulting to the empty tag (src/main.rs lines 389-404). -/
def langOf (path : List Char) : List Char :=
  match extensionOf path with
  | none => []
  | some ext =>
    match initialize_language_map.find? (fun kv => kv.1 = ext.map asciiLower) with
    | none => []
    | some kv => kv.2

/-- Model of `path.strip_prefix(".").unwrap_or(path)` (src/main.rs line 363):
drop a leading current-directory component. -/
def strip_dot (p : List Char) : List Char :=
  if p = ['.'] then []
  else if ['.', '/'] <+: p then p.drop 2
  else p

/-! ## `print_file`: the three output formats (src/main.rs lines 354-428)

The byte sink is modelled by returning the written characters; the
`GLOBAL_INDEX` atomic counter (src/main.rs line 45) is modelled by explicit
state passing: `print_file` takes the current counter value and returns the
new one (`fetch_add(1)` yields the previous value). -/

/-- The Claude-XML branch of `print_file`. -/
def render_cxml (st : Nat) (display_path processed_content : List Char) :
    List Char × Nat :=
  let index := st
  ("<document index=\"".data ++ Nat.toDigits 10 index ++ "\">\n".data ++
   "<source>".data ++ display_path ++ "</source>\n".data ++
   "<document_content>\n".data ++
   escape_content processed_content ++ ['\n'] ++
   "</document_content>\n".data ++
   "</document>\n".data, st + 1)

/-- The Markdown branch of `print_file`. -/
def render_markdown (path display_path processed_content : List Char) :
    List Char :=
  let lang := langOf path
  let backticks := chooseFence processed_content
  display_path ++ ['\n'] ++
  backticks ++ lang ++ ['\n'] ++
  processed_content ++ ['\n'] ++
  backticks ++ ['\n'] ++
  ['\n']

/-- The default branch of `print_file`. -/
def render_default (display_path processed_content : List Char) : List Char :=
  display_path ++ ['\n'] ++
  "---\n".data ++
  processed_content ++ ['\n'] ++
  "---\n".data ++
  ['\n']

/-- Embedding of `print_file` (src/main.rs lines 354-428): strip the leading
`./` from the display path, apply line numbering first if requested, then
dispatch `if cxml { .. } else if markdown { .. } else { .. }`. Returns the
written characters and the new global counter. -/
def print_file (st : Nat) (path content : List Char)
    (cxml markdown line_numbers : Bool) : List Char × Nat :=
  let display_path := strip_dot path
  let processed_content := if line_numbers then add_line_numbers content else content
  if cxml then
    render_cxml st display_path processed_content
  else if markdown then
    (render_markdown path display_path processed_content, st)
  else
    (render_default display_path processed_content, st)

/-- The main loop over the surviving entries (src/main.rs lines 188-236): each
successfully read file is rendered by `print_file`, threading the global
counter. Returns the per-document outputs in order and the final counter. -/
def run_files (st : Nat) (files : List (List Char × List Char))
    (cxml markdown line_numbers : Bool) : List (List Char) × Nat :=
  match files with
  | [] => ([], st)
  | (p, c) :: fs =>
    let r := print_file st p c cxml markdown line_numbers
    let rest := run_files r.2 fs cxml markdown line_numbers
    (r.1 :: rest.1, rest.2)

/-! ## CLI configuration, entry filter, walker configuration -/

/-- The parsed command line (src/main.rs lines 72-116). Paths and patterns
are character lists. -/
structure Cli where
  paths : List (List Char)
  extensions : List (List Char)
  include_hidden : Bool
  ignore_patterns : List (List Char)
  ignore_files_only : Bool
  ignore_gitignore : Bool
  cxml : Bool
  markdown : Bool
  line_numbers : Bool
  output_file : Option (List Char)
  null_separator : Bool

/-- A directory entry as seen by `should_process_entry`: its path and whether
its file type is a regular file. -/
structure Entry where
  is_file : Bool
  path : List Char

/-- The filename-only ignore match that `should_process_entry` computes when
`--ignore-files-only` is set (src/main.rs lines 282-305): does the bare file
name contain one of the ignore patterns as a substring. In the source this
value is computed but the `return false` that would act on it is commented
out, so it never affects the result. -/
def file_only_ignore_match (entry : Entry) (cli : Cli) : Bool :=
  if cli.ignore_files_only ∧ cli.ignore_patterns ≠ [] then
    cli.ignore_patterns.any (fun pat => containsSub (fileNameOf entry.path) pat)
  else false

/-- The extension filter of `should_process_entry` (src/main.rs lines
261-274): with a non-empty allowed set, an entry passes only when its
extension case-insensitively matches one allowed extension; entries with no
(decodable) extension are rejected. -/
def extension_matches (path : List Char) (exts : List (List Char)) : Bool :=
  match extensionOf path with
  | some ext => exts.any (fun a => eqIgnoreAsciiCase ext a)
  | none => false

/-- Embedding of `should_process_entry` (src/main.rs lines 252-308): reject
non-files; reject extension mismatches when `--extension` filters are given;
the `--ignore-files-only` block computes `file_only_ignore_match` but — as in
the source, where the rejection is commented out — does not act on it. -/
def should_process_entry (entry : Entry) (cli : Cli) : Bool :=
  if !entry.is_file then false
  else if !cli.extensions.isEmpty && !extension_matches entry.path cli.extensions then
    false
  else
    let _unused := file_only_ignore_match entry cli
    true

/-- The walker configuration assembled by `main` (src/main.rs lines 164-184).
`add_ignore_files` records the arguments handed to `WalkBuilder::add_ignore`,
which the `ignore` crate interprets as paths of ignore files to load — not as
glob patterns. -/
structure WalkerConfig where
  roots : List (List Char)
  hidden : Bool
  git_ignore : Bool
  git_global : Bool
  git_exclude : Bool
  require_git : Bool
  dot_ignore : Bool
  add_ignore_files : List (List Char)

/-- Embedding of the walker setup in `main` (src/main.rs lines 164-184). -/
def build_walker (cli : Cli) : WalkerConfig :=
  { roots := cli.paths
  , hidden := !cli.include_hidden
  , git_ignore := !cli.ignore_gitignore
  , git_global := !cli.ignore_gitignore
  , git_exclude := !cli.ignore_gitignore
  , require_git := false
  , dot_ignore := !cli.ignore_gitignore
  , add_ignore_files := cli.ignore_patterns }

/-! ## Path validation and the shape of a run (src/main.rs lines 120-247) -/

/-- The application error type (src/main.rs lines 49-61), at the granularity
the claims need. -/
inductive AppError where
  | Io : AppError
  | Ignore : AppError
  | PathNotFound : List Char → AppError
deriving DecidableEq

/-- The validation loop of `main` (src/main.rs lines 134-139): the first
path that does not exist aborts the run with `PathNotFound`. -/
def validate_paths (ex : List Char → Bool) :
    List (List Char) → Except AppError Unit
  | [] => .ok ()
  | p :: ps => if ¬ ex p then .error (.PathNotFound p) else validate_paths ex ps

/-- Observable outcome of a run: the error `main` returned (if any; a `some`
means a non-zero exit status), whether the output destination was created,
and the rendered documents. -/
structure RunOutcome where
  err : Option AppError
  output_created : Bool
  rendered : List (List Char)
deriving DecidableEq

/-- The order of stages in `main` (src/main.rs lines 134-246): paths are
validated first; only if all exist is the output destination created
(line 145) and the walk-and-render phase (abstracted by `render`) run. -/
def main_run (ex : List Char → Bool) (paths : List (List Char))
    (render : List (List Char) → List (List Char)) : RunOutcome :=
  match validate_paths ex paths with
  | .error e => { err := some e, output_created := false, rendered := [] }
  | .ok _ => { err := none, output_created := true, rendered := render paths }

/-! ## Helper lemmas -/

/-- In CXML mode `print_file` always advances the counter by exactly one. -/
theorem print_file_cxml_counter (st : Nat) (path content : List Char)
    (markdown line_numbers : Bool) :
    (print_file st path content true markdown line_numbers).2 = st + 1 := by
  simp [print_file, render_cxml]

/-- Generalized index bookkeeping for a CXML run started at any counter
value: the outputs are the files rendered at consecutive indices, and the
final counter advanced by the number of files. -/
theorem run_files_cxml_spec (files : List (List Char × List Char)) (st : Nat)
    (markdown line_numbers : Bool) :
    (run_files st files true markdown line_numbers).1 =
      ((List.range' st files.length).zip files).map
        (fun pr => (print_file pr.1 pr.2.1 pr.2.2 true markdown line_numbers).1) ∧
    (run_files st files true markdown line_numbers).2 = st + files.length := by
  induction files generalizing st with
  | nil => simp [run_files]
  | cons f fs ih =>
    obtain ⟨p, c⟩ := f
    have hc := print_file_cxml_counter st p c markdown line_numbers
    have ih' := ih (st + 1)
    constructor
    · show (print_file st p c true markdown line_numbers).1 ::
        (run_files (print_file st p c true markdown line_numbers).2 fs true
          markdown line_numbers).1 = _
      rw [hc, ih'.1]
      rfl
    · show (run_files (print_file st p c true markdown line_numbers).2 fs true
          markdown line_numbers).2 = st + (fs.length + 1)
      rw [hc, ih'.2]
      omega

/-- The validation loop finds the first missing path, in list order, and
fails with `PathNotFound` on it. -/
theorem validate_paths_first_missing (ex : List Char → Bool)
    (paths : List (List Char)) (h : ∃ p ∈ paths, ex p = false) :
    ∃ q l1 l2, paths = l1 ++ q :: l2 ∧ (∀ r ∈ l1, ex r = true) ∧ ex q = false ∧
      validate_paths ex paths = .error (.PathNotFound q) := by
  induction paths with
  | nil => simp at h
  | cons p ps ih =>
    by_cases hp : ex p = true
    · obtain ⟨x, hx, hxf⟩ := h
      rcases List.mem_cons.mp hx with rfl | hxps
      · exact absurd hp (by simp [hxf])
      · obtain ⟨q, l1, l2, heq, hall, hq, hval⟩ := ih ⟨x, hxps, hxf⟩
        refine ⟨q, p :: l1, l2, by simp [heq], ?_, hq, ?_⟩
        · intro r hr
          rcases List.mem_cons.mp hr with rfl | hr'
          · exact hp
          · exact hall r hr'
        · simpa [validate_paths, hp] using hval
    · have hp' : ex p = false := by
        cases hfe : ex p with
        | false => rfl
        | true => exact absurd hfe hp
      exact ⟨p, [], ps, by simp, by simp, hp', by simp [validate_paths, hp]⟩

/-- A pattern whose head differs from the head of the scanned list is not a
prefix of it. -/
theorem not_prefix_head (a b : Char) (l m : List Char) (h : a ≠ b) :
    ¬ (a :: l <+: b :: m) :=
  fun hp => h (List.cons_prefix_cons.mp hp).1

/-- A pattern agreeing on the first character but differing on the second is
not a prefix. -/
theorem not_prefix_second (a b c : Char) (l m : List Char) (h : b ≠ c) :
    ¬ (a :: b :: l <+: a :: c :: m) :=
  fun hp => h (List.cons_prefix_cons.mp (List.cons_prefix_cons.mp hp).2).1

/-- `replaceAll` steps over a character where the pattern does not match. -/
theorem replaceAll_cons_ne (pat r : List Char) (c : Char) (l : List Char)
    (h : ¬ pat <+: c :: l) :
    replaceAll pat r (c :: l) = c :: replaceAll pat r l := by
  rw [replaceAll]
  simp [h]

/-- `replaceAll` replaces a match at the head and continues after it. -/
theorem replaceAll_cons_matched (pat r l : List Char) (h : pat ≠ []) :
    replaceAll pat r (pat ++ l) = r ++ replaceAll pat r l := by
  cases pat with
  | nil => exact absurd rfl h
  | cons p ps =>
    rw [List.cons_append, replaceAll]
    have hpre : (p :: ps) <+: (p :: ps) ++ l := by
      rw [List.cons_append]
      exact ⟨l, rfl⟩
    rw [if_pos ⟨h, by rwa [List.cons_append] at hpre⟩]
    congr 1
    congr 1
    show List.drop (ps.length + 1) (p :: (ps ++ l)) = l
    rw [List.drop_succ_cons, List.drop_left]

/-- Replacement of a single-character pattern is character-wise expansion. -/
theorem replaceAll_single_char (c : Char) (r l : List Char) :
    replaceAll [c] r l = expandWith (fun x => if x = c then r else [x]) l := by
  induction l with
  | nil => simp [replaceAll, expandWith]
  | cons x xs ih =>
    by_cases hx : x = c
    · subst hx
      have := replaceAll_cons_matched [x] r xs (by simp)
      simp only [List.singleton_append] at this
      rw [this, ih]
      simp [expandWith]
    · rw [replaceAll_cons_ne [c] r x xs (not_prefix_head c x _ _ (Ne.symm hx)), ih]
      simp [expandWith, hx]

/-- Expanding twice composes character-wise. -/
theorem expandWith_expandWith (f g : Char → List Char) (l : List Char) :
    expandWith g (expandWith f l) = expandWith (fun c => expandWith g (f c)) l := by
  induction l with
  | nil => rfl
  | cons c cs ih =>
    show expandWith g (f c ++ expandWith f cs) = _
    have happ : ∀ a b : List Char, expandWith g (a ++ b) =
        expandWith g a ++ expandWith g b := by
      intro a b
      induction a with
      | nil => rfl
      | cons x xs ihx =>
        show g x ++ expandWith g (xs ++ b) = (g x ++ expandWith g xs) ++ expandWith g b
        rw [ihx, List.append_assoc]
    rw [happ, ih]
    rfl

/-- Pointwise equal expansion functions expand equally. -/
theorem expandWith_congr (f g : Char → List Char) (l : List Char)
    (h : ∀ c, f c = g c) : expandWith f l = expandWith g l := by
  induction l with
  | nil => rfl
  | cons c cs ih =>
    show f c ++ expandWith f cs = g c ++ expandWith g cs
    rw [h c, ih]

/-- The three escape substitutions of `print_file`, applied in source order
(`&` first, then `<`, then `>`), amount to one character-wise expansion. -/
theorem escape_content_eq_expand (s : List Char) :
    escape_content s = expandWith escChar s := by
  unfold escape_content
  rw [replaceAll_single_char '&' "&amp;".data s]
  rw [replaceAll_single_char '<' "&lt;".data _]
  rw [replaceAll_single_char '>' "&gt;".data _]
  rw [expandWith_expandWith, expandWith_expandWith]
  apply expandWith_congr
  intro c
  by_cases h1 : c = '&'
  · subst h1
    decide
  · by_cases h2 : c = '<'
    · subst h2
      decide
    · by_cases h3 : c = '>'
      · subst h3
        decide
      · simp [escChar, expandWith, h1, h2, h3]

/-- Un-escaping pass one: replacing `&gt;` by `>` in fully escaped text
leaves text in which only `&` and `<` are still escaped. -/
theorem unesc_gt_pass (s : List Char) :
    replaceAll "&gt;".data ['>'] (expandWith escChar s) = expandWith escCharNoGt s := by
  induction s with
  | nil => simp [replaceAll, expandWith]
  | cons c s' ih =>
    by_cases h1 : c = '&'
    · subst h1
      show replaceAll "&gt;".data ['>']
          ('&' :: 'a' :: 'm' :: 'p' :: ';' :: expandWith escChar s') =
        '&' :: 'a' :: 'm' :: 'p' :: ';' :: expandWith escCharNoGt s'
      rw [replaceAll_cons_ne _ _ _ _ (not_prefix_second '&' 'g' 'a' _ _ (by decide)),
        replaceAll_cons_ne _ _ _ _ (not_prefix_head '&' 'a' _ _ (by decide)),
        replaceAll_cons_ne _ _ _ _ (not_prefix_head '&' 'm' _ _ (by decide)),
        replaceAll_cons_ne _ _ _ _ (not_prefix_head '&' 'p' _ _ (by decide)),
        replaceAll_cons_ne _ _ _ _ (not_prefix_head '&' ';' _ _ (by decide)), ih]
    · by_cases h2 : c = '<'
      · subst h2
        show replaceAll "&gt;".data ['>']
            ('&' :: 'l' :: 't' :: ';' :: expandWith escChar s') =
          '&' :: 'l' :: 't' :: ';' :: expandWith escCharNoGt s'
        rw [replaceAll_cons_ne _ _ _ _ (not_prefix_second '&' 'g' 'l' _ _ (by decide)),
          replaceAll_cons_ne _ _ _ _ (not_prefix_head '&' 'l' _ _ (by decide)),
          replaceAll_cons_ne _ _ _ _ (not_prefix_head '&' 't' _ _ (by decide)),
          replaceAll_cons_ne _ _ _ _ (not_prefix_head '&' ';' _ _ (by decide)), ih]
      · by_cases h3 : c = '>'
        · subst h3
          show replaceAll "&gt;".data ['>']
              ("&gt;".data ++ expandWith escChar s') =
            '>' :: expandWith escCharNoGt s'
          rw [replaceAll_cons_matched "&gt;".data ['>'] _ (by decide), ih]
          rfl
        · simp only [expandWith, escChar, escCharNoGt, if_neg h1, if_neg h2,
            if_neg h3, List.singleton_append]
          rw [replaceAll_cons_ne _ _ _ _ (not_prefix_head '&' c _ _ (Ne.symm h1)), ih]

/-- Un-escaping pass two: replacing `&lt;` by `<` next leaves text in which
only `&` is still escaped. -/
theorem unesc_lt_pass (s : List Char) :
    replaceAll "&lt;".data ['<'] (expandWith escCharNoGt s) =
      expandWith escCharAmpOnly s := by
  induction s with
  | nil => simp [replaceAll, expandWith]
  | cons c s' ih =>
    by_cases h1 : c = '&'
    · subst h1
      show replaceAll "&lt;".data ['<']
          ('&' :: 'a' :: 'm' :: 'p' :: ';' :: expandWith escCharNoGt s') =
        '&' :: 'a' :: 'm' :: 'p' :: ';' :: expandWith escCharAmpOnly s'
      rw [replaceAll_cons_ne _ _ _ _ (not_prefix_second '&' 'l' 'a' _ _ (by decide)),
        replaceAll_cons_ne _ _ _ _ (not_prefix_head '&' 'a' _ _ (by decide)),
        replaceAll_cons_ne _ _ _ _ (not_prefix_head '&' 'm' _ _ (by decide)),
        replaceAll_cons_ne _ _ _ _ (not_prefix_head '&' 'p' _ _ (by decide)),
        replaceAll_cons_ne _ _ _ _ (not_prefix_head '&' ';' _ _ (by decide)), ih]
    · by_cases h2 : c = '<'
      · subst h2
        show replaceAll "&lt;".data ['<']
            ("&lt;".data ++ expandWith escCharNoGt s') =
          '<' :: expandWith escCharAmpOnly s'
        rw [replaceAll_cons_matched "&lt;".data ['<'] _ (by decide), ih]
        rfl
      · simp only [expandWith, escCharNoGt, escCharAmpOnly, if_neg h1, if_neg h2,
          List.singleton_append]
        rw [replaceAll_cons_ne _ _ _ _ (not_prefix_head '&' c _ _ (Ne.symm h1)), ih]

/-- Un-escaping pass three: replacing `&amp;` by `&` last restores the
original text. -/
theorem unesc_amp_pass (s : List Char) :
    replaceAll "&amp;".data ['&'] (expandWith escCharAmpOnly s) = s := by
  induction s with
  | nil => simp [replaceAll, expandWith]
  | cons c s' ih =>
    by_cases h1 : c = '&'
    · subst h1
      show replaceAll "&amp;".data ['&']
          ("&amp;".data ++ expandWith escCharAmpOnly s') = '&' :: s'
      rw [replaceAll_cons_matched "&amp;".data ['&'] _ (by decide), ih]
      rfl
    · simp only [expandWith, escCharAmpOnly, if_neg h1, List.singleton_append]
      rw [replaceAll_cons_ne _ _ _ _ (not_prefix_head '&' c _ _ (Ne.symm h1)), ih]

/-- Un-escaping with the inverse substitutions in reverse order undoes the
escaping, for every content. -/
theorem unescape_escape (s : List Char) :
    unescape_content (escape_content s) = s := by
  rw [escape_content_eq_expand]
  unfold unescape_content
  rw [unesc_gt_pass, unesc_lt_pass, unesc_amp_pass]

/-- A replicated run of backticks is a prefix exactly when the leading run is
long enough. -/
theorem replicate_btick_prefix_iff (n : Nat) (l : List Char) :
    (List.replicate n btick <+: l) ↔ n ≤ leadRun l := by
  induction n generalizing l with
  | zero => simp
  | succ n ih =>
    cases l with
    | nil => simp [leadRun, List.replicate_succ]
    | cons c cs =>
      rw [List.replicate_succ, List.cons_prefix_cons]
      by_cases hc : c = btick
      · subst hc
        simp [leadRun, ih, Nat.succ_le_succ_iff]
      · simp [leadRun, hc, Ne.symm hc]

/-- `longestRun` is the maximum of `leadRun` over all suffixes. -/
theorem le_longestRun_iff (n : Nat) (l : List Char) :
    n ≤ longestRun l ↔ ∃ t, t <:+ l ∧ n ≤ leadRun t := by
  induction l with
  | nil => simp [longestRun, leadRun, List.suffix_nil]
  | cons c cs ih =>
    rw [longestRun, le_max_iff]
    constructor
    · rintro (h | h)
      · exact ⟨c :: cs, List.suffix_rfl, h⟩
      · obtain ⟨t, ht, hn⟩ := ih.mp h
        exact ⟨t, ht.trans (List.suffix_cons c cs), hn⟩
    · rintro ⟨t, ht, hn⟩
      rcases List.suffix_cons_iff.mp ht with rfl | ht'
      · exact Or.inl hn
      · exact Or.inr (ih.mpr ⟨t, ht', hn⟩)

/-- A replicated run of backticks occurs as a substring exactly when the
longest backtick run is long enough. -/
theorem replicate_btick_infix_iff (n : Nat) (l : List Char) :
    (List.replicate n btick <:+: l) ↔ n ≤ longestRun l := by
  rw [List.infix_iff_prefix_suffix, le_longestRun_iff]
  constructor
  · rintro ⟨t, hp, hs⟩
    exact ⟨t, hs, (replicate_btick_prefix_iff n t).mp hp⟩
  · rintro ⟨t, hs, hn⟩
    exact ⟨t, (replicate_btick_prefix_iff n t).mpr hn, hs⟩

/-- The fence-growing loop stops at the first length not exceeded by the
longest backtick run: from any positive start it reaches
`max n (longestRun content + 1)`. -/
theorem growFence_eq (content : List Char) :
    ∀ n, 1 ≤ n → growFence content n = max n (longestRun content + 1) := by
  have key : ∀ m n, 1 ≤ n → longestRun content + 1 - n = m →
      growFence content n = max n (longestRun content + 1) := by
    intro m
    induction m using Nat.strong_induction_on with
    | _ m ih =>
      intro n hn hm
      rw [growFence]
      by_cases h : (List.replicate n btick) <:+: content
      · rw [if_pos h]
        have hle : n ≤ longestRun content := (replicate_btick_infix_iff n content).mp h
        have hrec := ih (longestRun content + 1 - (n + 1)) (by omega) (n + 1)
          (by omega) rfl
        rw [hrec, max_eq_right (by omega : n + 1 ≤ longestRun content + 1),
          max_eq_right (by omega : n ≤ longestRun content + 1)]
      · rw [if_neg h]
        have hgt : ¬ n ≤ longestRun content := fun hle =>
          h ((replicate_btick_infix_iff n content).mpr hle)
        rw [max_eq_left (by omega : longestRun content + 1 ≤ n)]
  intro n hn
  exact key (longestRun content + 1 - n) n hn rfl

/-! ## Lemmas about line splitting and joining -/

/-- Splitting always yields at least one piece. -/
theorem splitNl_ne_nil (s : List Char) : splitNl s ≠ [] := by
  cases s with
  | nil => simp [splitNl]
  | cons c cs =>
    simp only [splitNl]
    split <;> simp

/-- The head (with default) of a nonempty list is a member. -/
theorem headI_mem {α : Type} [Inhabited α] (l : List α) (h : l ≠ []) :
    l.headI ∈ l := by
  cases l with
  | nil => exact absurd rfl h
  | cons a as => simp

/-- The last element, when present, is a member. -/
theorem mem_of_getLast?_eq {α : Type} {l : List α} {a : α}
    (h : l.getLast? = some a) : a ∈ l := by
  induction l with
  | nil => simp at h
  | cons x xs ih =>
    cases xs with
    | nil =>
      simp only [List.getLast?_singleton, Option.some.injEq] at h
      simp [h]
    | cons y ys =>
      rw [List.getLast?_cons_cons] at h
      exact List.mem_cons_of_mem x (ih h)

/-- No piece produced by splitting contains a newline. -/
theorem splitNl_no_newline (s : List Char) : ∀ p ∈ splitNl s, '\n' ∉ p := by
  induction s with
  | nil =>
    intro p hp
    simp [splitNl] at hp
    simp [hp]
  | cons c cs ih =>
    intro p hp
    simp only [splitNl] at hp
    by_cases hc : c = '\n'
    · rw [if_pos hc] at hp
      rcases List.mem_cons.mp hp with rfl | hp'
      · simp
      · exact ih p hp'
    · rw [if_neg hc] at hp
      rcases List.mem_cons.mp hp with rfl | hp'
      · intro hmem
        rcases List.mem_cons.mp hmem with heq | hmem'
        · exact hc heq.symm
        · exact ih (splitNl cs).headI (headI_mem _ (splitNl_ne_nil cs)) hmem'
      · exact ih p (List.mem_of_mem_tail hp')

/-- Step equation: splitting at a newline starts a fresh piece. -/
theorem splitNl_cons_newline (cs : List Char) :
    splitNl ('\n' :: cs) = [] :: splitNl cs := by
  simp [splitNl]

/-- Step equation: a non-newline character extends the first piece. -/
theorem splitNl_cons_other (c : Char) (cs : List Char) (h : c ≠ '\n') :
    splitNl (c :: cs) = (c :: (splitNl cs).headI) :: (splitNl cs).tail := by
  simp [splitNl, h]

/-- Splitting a newline-free list yields that list as the single piece. -/
theorem splitNl_eq_single (l : List Char) (h : '\n' ∉ l) : splitNl l = [l] := by
  induction l with
  | nil => simp [splitNl]
  | cons c cs ih =>
    have hc : c ≠ '\n' := fun he => h (he ▸ List.mem_cons_self c cs)
    have hcs : '\n' ∉ cs := fun hm => h (List.mem_cons_of_mem c hm)
    rw [splitNl_cons_other c cs hc, ih hcs]
    rfl

/-- Splitting distributes over the first newline when the first piece is
newline-free. -/
theorem splitNl_append_cons (l rest : List Char) (h : '\n' ∉ l) :
    splitNl (l ++ '\n' :: rest) = l :: splitNl rest := by
  induction l with
  | nil => simp [splitNl_cons_newline]
  | cons c cs ih =>
    have hc : c ≠ '\n' := fun he => h (he ▸ List.mem_cons_self c cs)
    have hcs : '\n' ∉ cs := fun hm => h (List.mem_cons_of_mem c hm)
    rw [List.cons_append, splitNl_cons_other c _ hc, ih hcs]
    rfl

/-- Splitting yields the single empty piece only for the empty input. -/
theorem splitNl_eq_single_empty (s : List Char) (h : splitNl s = [[]]) :
    s = [] := by
  cases s with
  | nil => rfl
  | cons c cs =>
    exfalso
    by_cases hc : c = '\n'
    · subst hc
      rw [splitNl_cons_newline] at h
      have := splitNl_ne_nil cs
      simp at h
      exact this h
    · rw [splitNl_cons_other c cs hc] at h
      simp at h

/-- Appending a final newline appends one empty piece to the split. -/
theorem splitNl_concat_newline (s : List Char) :
    splitNl (s ++ ['\n']) = splitNl s ++ [[]] := by
  induction s with
  | nil => simp [splitNl, splitNl_cons_newline]
  | cons c cs ih =>
    by_cases hc : c = '\n'
    · subst hc
      rw [List.cons_append, splitNl_cons_newline, splitNl_cons_newline, ih]
      rfl
    · rw [List.cons_append, splitNl_cons_other c _ hc, ih,
        splitNl_cons_other c cs hc]
      obtain ⟨p, ps, hps⟩ : ∃ p ps, splitNl cs = p :: ps := by
        cases hsp : splitNl cs with
        | nil => exact absurd hsp (splitNl_ne_nil cs)
        | cons p ps => exact ⟨p, ps, rfl⟩
      rw [hps]
      rfl

/-- For a nonempty input not ending in a newline, the last piece of the
split is nonempty. -/
theorem splitNl_getLast_ne_empty (s : List Char) (h1 : s ≠ [])
    (h2 : s.getLast? ≠ some '\n') : (splitNl s).getLast? ≠ some [] := by
  induction s with
  | nil => exact absurd rfl h1
  | cons c cs ih =>
    cases cs with
    | nil =>
      have hc : c ≠ '\n' := by
        intro he
        exact h2 (by simp [he])
      rw [splitNl_cons_other c [] hc]
      simp [splitNl]
    | cons d ds =>
      have h2' : (d :: ds).getLast? ≠ some '\n' := by
        rwa [List.getLast?_cons_cons] at h2
      have ihr := ih (by simp) h2'
      obtain ⟨p, ps, hps⟩ : ∃ p ps, splitNl (d :: ds) = p :: ps := by
        cases hsp : splitNl (d :: ds) with
        | nil => exact absurd hsp (splitNl_ne_nil _)
        | cons p ps => exact ⟨p, ps, rfl⟩
      rw [hps] at ihr
      by_cases hc : c = '\n'
      · subst hc
        rw [splitNl_cons_newline, hps, List.getLast?_cons_cons]
        exact ihr
      · rw [splitNl_cons_other c _ hc, hps]
        cases ps with
        | nil => simp
        | cons q qs =>
          simp only [List.headI, List.tail_cons]
          rw [List.getLast?_cons_cons]
          rw [List.getLast?_cons_cons] at ihr
          exact ihr


/-- Splitting undoes joining, for a nonempty list of newline-free pieces. -/
theorem splitNl_joinNl (ls : List (List Char)) (hne : ls ≠ [])
    (h : ∀ l ∈ ls, '\n' ∉ l) : splitNl (joinNl ls) = ls := by
  induction ls with
  | nil => exact absurd rfl hne
  | cons l ls ih =>
    cases ls with
    | nil => exact splitNl_eq_single l (h l (List.mem_cons_self l []))
    | cons m ms =>
      show splitNl (l ++ '\n' :: joinNl (m :: ms)) = l :: m :: ms
      rw [splitNl_append_cons l _ (h l (List.mem_cons_self l _))]
      rw [ih (by simp) (fun x hx => h x (List.mem_cons_of_mem l hx))]

/-- Joining a nonempty list of pieces with a nonempty first piece is
nonempty. -/
theorem joinNl_ne_nil (ls : List (List Char)) (hne : ls ≠ [])
    (h : ∀ l ∈ ls, l ≠ []) : joinNl ls ≠ [] := by
  cases ls with
  | nil => exact absurd rfl hne
  | cons l ls =>
    cases ls with
    | nil =>
      show l ≠ []
      exact h l (List.mem_cons_self l [])
    | cons m ms =>
      show l ++ '\n' :: joinNl (m :: ms) ≠ []
      simp

/-- The last character of a join of nonempty newline-free pieces is not a
newline. -/
theorem joinNl_getLast_ne_newline (ls : List (List Char)) (hne : ls ≠ [])
    (hemp : ∀ l ∈ ls, l ≠ []) (hnl : ∀ l ∈ ls, '\n' ∉ l) :
    (joinNl ls).getLast? ≠ some '\n' := by
  induction ls with
  | nil => exact absurd rfl hne
  | cons l ls ih =>
    cases ls with
    | nil =>
      show l.getLast? ≠ some '\n'
      intro heq
      exact hnl l (List.mem_cons_self l []) (mem_of_getLast?_eq heq)
    | cons m ms =>
      show (l ++ '\n' :: joinNl (m :: ms)).getLast? ≠ some '\n'
      have hj : joinNl (m :: ms) ≠ [] :=
        joinNl_ne_nil (m :: ms) (by simp)
          (fun x hx => hemp x (List.mem_cons_of_mem l hx))
      have htail := ih (by simp)
        (fun x hx => hemp x (List.mem_cons_of_mem l hx))
        (fun x hx => hnl x (List.mem_cons_of_mem l hx))
      rw [List.getLast?_append_cons]
      obtain ⟨a, as, has⟩ : ∃ a as, joinNl (m :: ms) = a :: as := by
        cases hj' : joinNl (m :: ms) with
        | nil => exact absurd hj' hj
        | cons a as => exact ⟨a, as, rfl⟩
      rw [has, List.getLast?_cons_cons]
      rw [has] at htail
      exact htail

/-! ## Lemmas about decimal digit rendering -/

/-- `Nat.digitChar` never produces a newline. -/
theorem digitChar_ne_newline (n : Nat) : Nat.digitChar n ≠ '\n' := by
  rcases Nat.lt_or_ge n 16 with h | h
  · interval_cases n <;> decide
  · unfold Nat.digitChar
    rw [if_neg (by omega : ¬ n = 0), if_neg (by omega : ¬ n = 1),
      if_neg (by omega : ¬ n = 2), if_neg (by omega : ¬ n = 3),
      if_neg (by omega : ¬ n = 4), if_neg (by omega : ¬ n = 5),
      if_neg (by omega : ¬ n = 6), if_neg (by omega : ¬ n = 7),
      if_neg (by omega : ¬ n = 8), if_neg (by omega : ¬ n = 9),
      if_neg (by omega : ¬ n = 10), if_neg (by omega : ¬ n = 11),
      if_neg (by omega : ¬ n = 12), if_neg (by omega : ¬ n = 13),
      if_neg (by omega : ¬ n = 14), if_neg (by omega : ¬ n = 15)]
    decide

/-- `Nat.toDigitsCore` preserves newline-freeness of the accumulator. -/
theorem toDigitsCore_no_newline :
    ∀ (fuel n : Nat) (ds : List Char), (∀ c ∈ ds, c ≠ '\n') →
      ∀ c ∈ Nat.toDigitsCore 10 fuel n ds, c ≠ '\n' := by
  intro fuel
  induction fuel with
  | zero => intro n ds h; simpa [Nat.toDigitsCore] using h
  | succ fuel ih =>
    intro n ds h c hc
    simp only [Nat.toDigitsCore] at hc
    have hd : ∀ x ∈ Nat.digitChar (n % 10) :: ds, x ≠ '\n' := by
      intro x hx
      rcases List.mem_cons.mp hx with rfl | hx'
      · exact digitChar_ne_newline (n % 10)
      · exact h x hx'
    by_cases hz : n / 10 = 0
    · rw [if_pos hz] at hc
      exact hd c hc
    · rw [if_neg hz] at hc
      exact ih (n / 10) (Nat.digitChar (n % 10) :: ds) hd c hc

/-- The decimal rendering of a natural number contains no newline. -/
theorem toDigits_no_newline (n : Nat) : '\n' ∉ Nat.toDigits 10 n := by
  intro hmem
  exact toDigitsCore_no_newline (n + 1) n [] (by simp) '\n' hmem rfl

/-- `Nat.toDigitsCore` never shrinks a nonempty accumulator to nothing. -/
theorem toDigitsCore_ne_nil :
    ∀ (fuel n : Nat) (ds : List Char), ds ≠ [] →
      Nat.toDigitsCore 10 fuel n ds ≠ [] := by
  intro fuel
  induction fuel with
  | zero => intro n ds h; simpa [Nat.toDigitsCore] using h
  | succ fuel ih =>
    intro n ds h
    simp only [Nat.toDigitsCore]
    by_cases hz : n / 10 = 0
    · rw [if_pos hz]
      simp
    · rw [if_neg hz]
      exact ih (n / 10) _ (by simp)

/-- The decimal rendering of a natural number is nonempty. -/
theorem toDigits_ne_nil (n : Nat) : Nat.toDigits 10 n ≠ [] := by
  show Nat.toDigitsCore 10 (n + 1) n [] ≠ []
  simp only [Nat.toDigitsCore]
  by_cases hz : n / 10 = 0
  · rw [if_pos hz]
    simp
  · rw [if_neg hz]
    exact toDigitsCore_ne_nil n (n / 10) _ (by simp)

/-! ## Lemmas about `rustLines` and `add_line_numbers` -/

/-- The second component of an enumerated pair is a member of the list. -/
theorem snd_mem_of_mem_enumFrom {α : Type} :
    ∀ (l : List α) (n : Nat) (pr : Nat × α), pr ∈ List.enumFrom n l → pr.2 ∈ l := by
  intro l
  induction l with
  | nil =>
    intro n pr h
    simp [List.enumFrom] at h
  | cons a as ih =>
    intro n pr h
    simp only [List.enumFrom] at h
    rcases List.mem_cons.mp h with rfl | h'
    · simp
    · exact List.mem_cons_of_mem a (ih (n + 1) pr h')

/-- The last element of a cons with a nonempty tail is the last of the
tail. -/
theorem getLast?_cons_of_ne_nil {α : Type} (a : α) (l : List α) (h : l ≠ []) :
    (a :: l).getLast? = l.getLast? := by
  cases l with
  | nil => exact absurd rfl h
  | cons b bs => exact List.getLast?_cons_cons

/-- The default-valued last element of a nonempty list is a member. -/
theorem getLastD_mem {α : Type} (l : List α) (d : α) (h : l ≠ []) :
    l.getLastD d ∈ l := by
  rw [List.getLastD_eq_getLast?]
  cases hl : l.getLast? with
  | none => exact absurd (List.getLast?_eq_none_iff.mp hl) h
  | some a => exact mem_of_getLast?_eq hl

/-- The default-valued last element agrees with a known `getLast?`. -/
theorem getLastD_of_getLast?_eq {α : Type} {l : List α} {q : α} (d : α)
    (h : l.getLast? = some q) : l.getLastD d = q := by
  rw [List.getLastD_eq_getLast?, h]
  rfl

/-- Mapping over a list splits as mapping over its front plus the image of
its last element. -/
theorem map_eq_dropLast_map_concat {α β : Type} (f : α → β) :
    ∀ (l : List α) (q : α), l.getLast? = some q →
      l.map f = l.dropLast.map f ++ [f q] := by
  intro l
  induction l with
  | nil =>
    intro q hq
    simp at hq
  | cons x xs ih =>
    intro q hq
    cases xs with
    | nil =>
      simp only [List.getLast?_singleton, Option.some.injEq] at hq
      subst hq
      simp
    | cons y ys =>
      rw [List.getLast?_cons_cons] at hq
      show f x :: (y :: ys).map f = (x :: (y :: ys).dropLast).map f ++ [f q]
      rw [ih q hq]
      rfl

/-- Stripping a carriage return preserves newline-freeness. -/
theorem stripCR_no_newline (q : List Char) (h : '\n' ∉ q) : '\n' ∉ stripCR q := by
  unfold stripCR
  by_cases hcr : q.getLast? = some '\r'
  · rw [if_pos hcr]
    intro hmem
    exact h (List.dropLast_subset q hmem)
  · rwa [if_neg hcr]

/-- The final piece of the split of a nonempty input is either empty or ends
in the input's last character. -/
theorem splitNl_last_piece_last (s : List Char) (h1 : s ≠ []) :
    ∀ q, (splitNl s).getLast? = some q → q = [] ∨ q.getLast? = s.getLast? := by
  induction s with
  | nil => exact absurd rfl h1
  | cons c cs ih =>
    intro q hq
    cases cs with
    | nil =>
      by_cases hc : c = '\n'
      · subst hc
        rw [splitNl_cons_newline] at hq
        simp [splitNl] at hq
        exact Or.inl hq
      · rw [splitNl_cons_other c [] hc] at hq
        simp [splitNl] at hq
        subst hq
        simp
    | cons d ds =>
      obtain ⟨p, ps, hps⟩ : ∃ p ps, splitNl (d :: ds) = p :: ps := by
        cases hsp : splitNl (d :: ds) with
        | nil => exact absurd hsp (splitNl_ne_nil _)
        | cons p ps => exact ⟨p, ps, rfl⟩
      rw [List.getLast?_cons_cons]
      by_cases hc : c = '\n'
      · subst hc
        rw [splitNl_cons_newline, getLast?_cons_of_ne_nil _ _ (splitNl_ne_nil _)] at hq
        exact ih (by simp) q hq
      · rw [splitNl_cons_other c _ hc, hps] at hq
        cases ps with
        | nil =>
          simp only [List.headI, List.tail_cons, List.getLast?_singleton,
            Option.some.injEq] at hq
          have hp : p ≠ [] := by
            intro hpe
            subst hpe
            exact (by simp : (d : Char) :: ds ≠ []) (splitNl_eq_single_empty _ hps)
          have := ih (by simp) p (by rw [hps]; rfl)
          rcases this with hpe | hpl
          · exact absurd hpe hp
          · subst hq
            rw [getLast?_cons_of_ne_nil c p hp]
            exact Or.inr hpl
        | cons e es =>
          simp only [List.headI, List.tail_cons] at hq
          rw [List.getLast?_cons_cons] at hq
          apply ih (by simp) q
          rw [hps, getLast?_cons_of_ne_nil _ _ (by simp)]
          exact hq

/-- On input not ending in a newline, the unterminated final piece is kept
as is and only the earlier pieces are carriage-return-stripped. -/
theorem rustLines_not_terminated (s : List Char) (h1 : s ≠ [])
    (h2 : s.getLast? ≠ some '\n') :
    rustLines s =
      (splitNl s).dropLast.map stripCR ++ [(splitNl s).getLastD []] := by
  simp only [rustLines]
  rw [if_neg (splitNl_getLast_ne_empty s h1 h2)]

/-- A final newline drops the final empty piece and leaves every remaining
piece newline-terminated, hence stripped. -/
theorem rustLines_concat_newline (s : List Char) :
    rustLines (s ++ ['\n']) = (splitNl s).map stripCR := by
  simp only [rustLines, splitNl_concat_newline]
  rw [if_pos (List.getLast?_concat _), List.dropLast_concat]

/-- The lines of a nonempty input ending in neither a newline nor a carriage
return are unchanged by appending a final newline. -/
theorem rustLines_stable (s : List Char) (h1 : s ≠ [])
    (h2 : s.getLast? ≠ some '\n') (h3 : s.getLast? ≠ some '\r') :
    rustLines (s ++ ['\n']) = rustLines s := by
  obtain ⟨q, hq⟩ : ∃ q, (splitNl s).getLast? = some q := by
    cases hl : (splitNl s).getLast? with
    | none => exact absurd (List.getLast?_eq_none_iff.mp hl) (splitNl_ne_nil s)
    | some q => exact ⟨q, rfl⟩
  have hqne : q ≠ [] := by
    intro hqe
    exact splitNl_getLast_ne_empty s h1 h2 (hqe ▸ hq)
  have hql : q.getLast? = s.getLast? :=
    (splitNl_last_piece_last s h1 q hq).resolve_left hqne
  have hstr : stripCR q = q := by
    unfold stripCR
    rw [if_neg]
    rw [hql]
    exact h3
  rw [rustLines_concat_newline, rustLines_not_terminated s h1 h2,
    map_eq_dropLast_map_concat stripCR (splitNl s) q hq, hstr,
    getLastD_of_getLast?_eq [] hq]

/-- No line produced by `rustLines` contains a newline. -/
theorem rustLines_no_newline (s : List Char) : ∀ p ∈ rustLines s, '\n' ∉ p := by
  intro p hp
  simp only [rustLines] at hp
  by_cases hcond : (splitNl s).getLast? = some []
  · rw [if_pos hcond] at hp
    obtain ⟨q, hq, hqp⟩ := List.mem_map.mp hp
    rw [← hqp]
    exact stripCR_no_newline q (splitNl_no_newline s q (List.dropLast_subset _ hq))
  · rw [if_neg hcond] at hp
    rcases List.mem_append.mp hp with hp1 | hp2
    · obtain ⟨q, hq, hqp⟩ := List.mem_map.mp hp1
      rw [← hqp]
      exact stripCR_no_newline q (splitNl_no_newline s q (List.dropLast_subset _ hq))
    · have hp2' : p = (splitNl s).getLastD [] := by simpa using hp2
      rw [hp2']
      exact splitNl_no_newline s _ (getLastD_mem _ [] (splitNl_ne_nil s))

/-- The lines of a nonempty input form a nonempty list. -/
theorem rustLines_ne_nil (s : List Char) (h : s ≠ []) : rustLines s ≠ [] := by
  simp only [rustLines]
  by_cases hcond : (splitNl s).getLast? = some []
  · rw [if_pos hcond]
    intro he
    rw [List.map_eq_nil_iff] at he
    obtain ⟨p, ps, hps⟩ : ∃ p ps, splitNl s = p :: ps := by
      cases hsp : splitNl s with
      | nil => exact absurd hsp (splitNl_ne_nil s)
      | cons p ps => exact ⟨p, ps, rfl⟩
    rw [hps] at he hcond
    cases ps with
    | nil =>
      simp only [List.getLast?_singleton, Option.some.injEq] at hcond
      subst hcond
      exact h (splitNl_eq_single_empty s hps)
    | cons q qs => simp at he
  · rw [if_neg hcond]
    simp

/-- Decomposition of `add_line_numbers` on nonempty input: it is the join of
the formatted lines, the formatted lines are a nonempty list, each formatted
line is nonempty, and no formatted line contains a newline. -/
theorem add_line_numbers_parts (content : List Char) (h : content ≠ []) :
    add_line_numbers content = joinNl ((rustLines content).enum.map (fun pr =>
      padRightSpaces (Nat.toDigits 10 (pr.1 + 1))
        (Nat.toDigits 10 (rustLines content).length).length ++ [' ', ' '] ++ pr.2)) ∧
    (rustLines content).enum.map (fun pr =>
      padRightSpaces (Nat.toDigits 10 (pr.1 + 1))
        (Nat.toDigits 10 (rustLines content).length).length ++ [' ', ' '] ++ pr.2) ≠ [] ∧
    (∀ p ∈ (rustLines content).enum.map (fun pr =>
      padRightSpaces (Nat.toDigits 10 (pr.1 + 1))
        (Nat.toDigits 10 (rustLines content).length).length ++ [' ', ' '] ++ pr.2),
      p ≠ []) ∧
    (∀ p ∈ (rustLines content).enum.map (fun pr =>
      padRightSpaces (Nat.toDigits 10 (pr.1 + 1))
        (Nat.toDigits 10 (rustLines content).length).length ++ [' ', ' '] ++ pr.2),
      '\n' ∉ p) := by
  have hlinesne : rustLines content ≠ [] := rustLines_ne_nil content h
  have hN : ¬ ((rustLines content).length = 0) := by
    simpa [List.length_eq_zero] using hlinesne
  refine ⟨?_, ?_, ?_, ?_⟩
  · simp only [add_line_numbers]
    rw [if_neg hN]
  · intro he
    apply hlinesne
    have hlen := congrArg List.length he
    simpa [List.enum_length] using hlen
  · intro p hp
    obtain ⟨pr, _, hpr⟩ := List.mem_map.mp hp
    rw [← hpr]
    simp [padRightSpaces]
  · intro p hp
    obtain ⟨pr, hprmem, hpr⟩ := List.mem_map.mp hp
    have hsnd : pr.2 ∈ rustLines content :=
      snd_mem_of_mem_enumFrom (rustLines content) 0 pr hprmem
    have hline := rustLines_no_newline content pr.2 hsnd
    intro hmem
    rw [← hpr] at hmem
    simp only [padRightSpaces, List.append_assoc, List.mem_append,
      List.mem_replicate] at hmem
    rcases hmem with hd | hrep | hsp | hln
    · exact toDigits_no_newline (pr.1 + 1) hd
    · exact absurd hrep.2 (by decide)
    · simp at hsp
    · exact hline hln

/-- On nonempty input, `add_line_numbers` output splits back into exactly the
formatted lines. -/
theorem add_line_numbers_splits (content : List Char) (h : content ≠ []) :
    splitNl (add_line_numbers content) =
      (rustLines content).enum.map (fun pr =>
        padRightSpaces (Nat.toDigits 10 (pr.1 + 1))
          (Nat.toDigits 10 (rustLines content).length).length ++ [' ', ' '] ++ pr.2) := by
  obtain ⟨haln, hne, _, hnl⟩ := add_line_numbers_parts content h
  rw [haln]
  exact splitNl_joinNl _ hne hnl

/-! ## Claim theorems -/

/-- Claim C1 (status: code_bug). The claim says that with
`--ignore-files-only` set and a non-empty `--ignore` list, an entry whose
bare file name matches a pattern is rejected by the entry filter. In the
source the rejection (`return false`) is commented out (src/main.rs lines
296-303), so the match is computed but the entry is still processed: on the
file `dir/secret.txt` with pattern `secret`, the filename-only match is
`true`, yet `should_process_entry` also returns `true`. -/
theorem c1_ignore_files_only_inert :
    file_only_ignore_match ⟨true, "dir/secret.txt".data⟩
      ⟨[], [], false, ["secret".data], true, false, false, false, false, none, false⟩
      = true ∧
    should_process_entry ⟨true, "dir/secret.txt".data⟩
      ⟨[], [], false, ["secret".data], true, false, false, false, false, none, false⟩
      = true := by
  constructor
  · decide
  · decide

/-- Claim C2 (status: code_bug, supporting theorem). What the source
actually builds when `--ignore-gitignore` is set: every version-control
ignore source (`git_ignore`, `git_global`, `git_exclude`, and plain `.ignore`
files) is disabled, while the `--ignore` arguments are passed — unchanged and
unconditionally — to `WalkBuilder::add_ignore`, i.e. recorded as paths of
ignore files to load rather than as glob patterns matched against candidate
paths. -/
theorem c2_walker_sources_disabled (cli : Cli) (h : cli.ignore_gitignore = true) :
    (build_walker cli).git_ignore = false ∧
    (build_walker cli).git_global = false ∧
    (build_walker cli).git_exclude = false ∧
    (build_walker cli).dot_ignore = false ∧
    (build_walker cli).add_ignore_files = cli.ignore_patterns := by
  simp [build_walker, h]

/-- Witness for C2 at a concrete configuration. -/
theorem c2_walker_sources_disabled_witness :
    (build_walker ⟨["src".data], [], false, ["*.log".data], false, true,
        false, false, false, none, false⟩).git_ignore = false ∧
    (build_walker ⟨["src".data], [], false, ["*.log".data], false, true,
        false, false, false, none, false⟩).git_global = false ∧
    (build_walker ⟨["src".data], [], false, ["*.log".data], false, true,
        false, false, false, none, false⟩).git_exclude = false ∧
    (build_walker ⟨["src".data], [], false, ["*.log".data], false, true,
        false, false, false, none, false⟩).dot_ignore = false ∧
    (build_walker ⟨["src".data], [], false, ["*.log".data], false, true,
        false, false, false, none, false⟩).add_ignore_files = ["*.log".data] :=
  c2_walker_sources_disabled
    ⟨["src".data], [], false, ["*.log".data], false, true,
      false, false, false, none, false⟩ rfl

/-- Claim C3 (status: corrected), counterexample. For the file `a.txt` with
content `hello\n` in the default format without line numbers, the rendered
document is not the claimed `a.txt\n---\nhello\n---\n\n`: the source writes
the content with `writeln!`, which appends a newline to the already
newline-terminated content. -/
theorem c3_counterexample :
    (print_file 1 "a.txt".data "hello\n".data false false false).1 ≠
      "a.txt\n---\nhello\n---\n\n".data := by
  decide

/-- Claim C3 as amended: the rendered document is exactly
`a.txt\n---\nhello\n\n---\n\n` — the display path line, a `---` line, the
content with one newline appended (hence a blank line, because the content
already ends in a newline), a `---` line, then one blank line. -/
theorem c3_default_format_output :
    (print_file 1 "a.txt".data "hello\n".data false false false).1 =
      "a.txt\n---\nhello\n\n---\n\n".data := by
  decide

/-- Claim C5 (status: confirmed). For every content whose longest run of
consecutive backticks has length `longestRun content`, the Markdown fence
chosen by `print_file` has length `max 3 (longestRun content + 1)` and never
occurs as a substring of the content; the closing fence is the same
`chooseFence content` string as the opening fence in `render_markdown`. -/
theorem c5_fence_length_and_absence (content : List Char) :
    (chooseFence content).length = max 3 (longestRun content + 1) ∧
    ¬ (chooseFence content <:+: content) := by
  have hg := growFence_eq content 3 (by omega)
  constructor
  · simp [chooseFence, hg]
  · intro hinf
    have hle : growFence content 3 ≤ longestRun content :=
      (replicate_btick_infix_iff (growFence content 3) content).mp
        (by simpa [chooseFence] using hinf)
    rw [hg] at hle
    have h3 : longestRun content + 1 ≤ max 3 (longestRun content + 1) :=
      le_max_right 3 (longestRun content + 1)
    omega

/-- Witness for C5 at a concrete content holding a run of two backticks. -/
theorem c5_fence_length_and_absence_witness :
    (chooseFence ('a' :: btick :: btick :: ['b'])).length =
      max 3 (longestRun ('a' :: btick :: btick :: ['b']) + 1) ∧
    ¬ (chooseFence ('a' :: btick :: btick :: ['b']) <:+:
        ('a' :: btick :: btick :: ['b'])) :=
  c5_fence_length_and_absence ('a' :: btick :: btick :: ['b'])

/-- Claim C6 (status: confirmed). In a CXML run the counter starts at 1 and
each rendered document gets the next index: the outputs of the run are
exactly the files rendered at indices `range' 1 n = [1, 2, ..., n]` in
discovery order, and the final counter is `1 + n`, so indices are strictly
increasing from 1 and never reused. -/
theorem c6_cxml_indices (files : List (List Char × List Char))
    (markdown line_numbers : Bool) :
    (run_files 1 files true markdown line_numbers).1 =
      ((List.range' 1 files.length).zip files).map
        (fun pr => (print_file pr.1 pr.2.1 pr.2.2 true markdown line_numbers).1) ∧
    (run_files 1 files true markdown line_numbers).2 = 1 + files.length :=
  run_files_cxml_spec files 1 markdown line_numbers

/-- Claim C7 (status: confirmed). For every content (including content with
`&`, `<`, `>`), applying the CXML escape of `print_file` and then
un-escaping with the inverse substitutions in reverse order reconstructs the
content exactly, and the escape function is injective. -/
theorem c7_escape_roundtrip (s t : List Char) :
    unescape_content (escape_content s) = s ∧
    (escape_content s = escape_content t → s = t) := by
  refine ⟨unescape_escape s, fun he => ?_⟩
  have h := congrArg unescape_content he
  rwa [unescape_escape s, unescape_escape t] at h

/-- Witness for C7 at a concrete content containing all three escaped
characters. -/
theorem c7_escape_roundtrip_witness :
    unescape_content (escape_content "a<&amp;>b".data) = "a<&amp;>b".data ∧
    (escape_content "a<&amp;>b".data = escape_content "xy".data →
      "a<&amp;>b".data = "xy".data) :=
  c7_escape_roundtrip "a<&amp;>b".data "xy".data

/-- Claim C8 (status: confirmed). If some root path does not exist, the run
fails with `PathNotFound` naming the first missing path in list order, the
output destination is never created, and nothing is rendered. -/
theorem c8_missing_path_fail_fast (ex : List Char → Bool)
    (paths : List (List Char)) (render : List (List Char) → List (List Char))
    (h : ∃ p ∈ paths, ex p = false) :
    ∃ q l1 l2, paths = l1 ++ q :: l2 ∧ (∀ r ∈ l1, ex r = true) ∧ ex q = false ∧
      main_run ex paths render =
        { err := some (.PathNotFound q), output_created := false, rendered := [] } := by
  obtain ⟨q, l1, l2, heq, hall, hq, hval⟩ := validate_paths_first_missing ex paths h
  exact ⟨q, l1, l2, heq, hall, hq, by simp [main_run, hval]⟩

/-- Witness for C8: with roots `[a, gone]` where only `gone` is missing, the
run fails with `PathNotFound gone`, creates no output and renders nothing. -/
theorem c8_missing_path_fail_fast_witness :
    ∃ q l1 l2, ["a".data, "gone".data] = l1 ++ q :: l2 ∧
      (∀ r ∈ l1, (fun p => !(p = "gone".data : Bool)) r = true) ∧
      (fun p => !(p = "gone".data : Bool)) q = false ∧
      main_run (fun p => !(p = "gone".data : Bool)) ["a".data, "gone".data]
          (fun _ => []) =
        { err := some (.PathNotFound q), output_created := false, rendered := [] } :=
  c8_missing_path_fail_fast (fun p => !(p = "gone".data : Bool))
    ["a".data, "gone".data] (fun _ => [])
    ⟨"gone".data, by simp, by simp⟩

/-- Claim C10 (status: confirmed). When both the `--cxml` and `--markdown`
flags are set, `print_file` renders the CXML format: the markdown flag has
no effect, and the output equals the CXML branch. -/
theorem c10_cxml_precedence (st : Nat) (path content : List Char) (ln : Bool) :
    print_file st path content true true ln = print_file st path content true false ln ∧
    print_file st path content true true ln =
      render_cxml st (strip_dot path)
        (if ln then add_line_numbers content else content) := by
  constructor <;> rfl

/-- Claim C4 (status: corrected), counterexample. On the ten-line content
`a..j` the claimed right-justified (left-padded) indices do not appear: the
first output line is `1   a` (index left-justified in width 2, then two
spaces), not ` 1  a`. -/
theorem c4_counterexample :
    (splitNl (add_line_numbers "a\nb\nc\nd\ne\nf\ng\nh\ni\nj".data)).head? =
      some "1   a".data ∧
    ¬ (splitNl (add_line_numbers "a\nb\nc\nd\ne\nf\ng\nh\ni\nj".data) =
      (rustLines "a\nb\nc\nd\ne\nf\ng\nh\ni\nj".data).enum.map (fun pr =>
        padLeftSpaces (Nat.toDigits 10 (pr.1 + 1)) 2 ++ [' ', ' '] ++ pr.2)) := by
  constructor
  · decide
  · decide

/-- Claim C4 as amended: for every non-empty content, the output of
`add_line_numbers` has as many lines as the input, and its k-th line is the
1-based index `k` rendered LEFT-justified (right-padded with spaces) to a
width equal to the decimal-digit count of the total line count, followed by
two spaces and the original line text, for k running over `1..N` in input
order. -/
theorem c4_line_numbering (content : List Char) (h : content ≠ []) :
    (rustLines (add_line_numbers content)).length = (rustLines content).length ∧
    splitNl (add_line_numbers content) =
      (rustLines content).enum.map (fun pr =>
        padRightSpaces (Nat.toDigits 10 (pr.1 + 1))
          (Nat.toDigits 10 (rustLines content).length).length ++ [' ', ' '] ++ pr.2) := by
  have hsplit := add_line_numbers_splits content h
  obtain ⟨_, hne, hemp, _⟩ := add_line_numbers_parts content h
  refine ⟨?_, hsplit⟩
  have hlast : ¬ ((splitNl (add_line_numbers content)).getLast? = some []) := by
    intro heq
    rw [hsplit] at heq
    exact hemp [] (mem_of_getLast?_eq heq) rfl
  have hlen0 : (rustLines content).length ≠ 0 := by
    simpa [List.length_eq_zero] using rustLines_ne_nil content h
  have hout : rustLines (add_line_numbers content) =
      (splitNl (add_line_numbers content)).dropLast.map stripCR ++
        [(splitNl (add_line_numbers content)).getLastD []] := by
    simp only [rustLines]
    rw [if_neg hlast]
  rw [hout, hsplit]
  simp only [List.length_append, List.length_map, List.length_dropLast,
    List.enum_length, List.length_singleton]
  omega

/-- Witness for C4 on the two-line content `x` and `y`. -/
theorem c4_line_numbering_witness :
    (rustLines (add_line_numbers "x\ny".data)).length =
      (rustLines "x\ny".data).length ∧
    splitNl (add_line_numbers "x\ny".data) =
      (rustLines "x\ny".data).enum.map (fun pr =>
        padRightSpaces (Nat.toDigits 10 (pr.1 + 1))
          (Nat.toDigits 10 (rustLines "x\ny".data).length).length ++
            [' ', ' '] ++ pr.2) :=
  c4_line_numbering "x\ny".data (by decide)

/-- Claim C9 (status: corrected), counterexample. Two inputs not ending with
a newline refute the claimed equality. First, the empty content:
`add_line_numbers "" = ""` while `add_line_numbers "\n" = "1  "`, because
Rust `str::lines` yields no lines for the empty string but one empty line
for a lone newline. Second, content ending in a carriage return:
`add_line_numbers "x\r" = "1  x\r"` (an unterminated last line keeps its
`\r`) while `add_line_numbers "x\r\n" = "1  x"` (the `\r` of a `\r\n` line
ending is stripped). -/
theorem c9_counterexample :
    ((([] : List Char).getLast? ≠ some '\n') ∧
      add_line_numbers ([] ++ ['\n']) ≠ add_line_numbers []) ∧
    (("x\r".data.getLast? ≠ some '\n') ∧
      add_line_numbers ("x\r".data ++ ['\n']) ≠ add_line_numbers "x\r".data) := by
  refine ⟨⟨?_, ?_⟩, ?_, ?_⟩
  · decide
  · decide
  · decide
  · decide

/-- Claim C9 as amended: for every NON-EMPTY content ending with NEITHER a
newline NOR a carriage return, appending a trailing newline does not change
the line-numbered output, and the line-numbered output of such content never
ends with a newline character. -/
theorem c9_trailing_newline (s : List Char) (h1 : s ≠ [])
    (h2 : s.getLast? ≠ some '\n') (h3 : s.getLast? ≠ some '\r') :
    add_line_numbers (s ++ ['\n']) = add_line_numbers s ∧
    (add_line_numbers s).getLast? ≠ some '\n' := by
  constructor
  · have hr := rustLines_stable s h1 h2 h3
    simp only [add_line_numbers]
    rw [hr]
  · obtain ⟨haln, hne, hemp, hnl⟩ := add_line_numbers_parts s h1
    rw [haln]
    exact joinNl_getLast_ne_newline _ hne hemp hnl

/-- Witness for C9 on the content `ab`. -/
theorem c9_trailing_newline_witness :
    add_line_numbers ("ab".data ++ ['\n']) = add_line_numbers "ab".data ∧
    (add_line_numbers "ab".data).getLast? ≠ some '\n' :=
  c9_trailing_newline "ab".data (by decide) (by decide) (by decide)

end FilesIngest
